import Mathlib

/-!
Verification of the Baloo lookup-argument prototype
(`src/plonkish_backend/src/backend/baloo.rs`).

Polynomials in monomial form are embedded as coefficient lists over a field
`F` (index `i` holds the coefficient of `X^i`), matching the `coeffs` vector
of the source's `UnivariatePolynomial`.  Fallible operations of the source
(`Option::unwrap` on `position`, `invert`) are embedded with `Option`: a
`none` models the panic.  The source's polynomial-arithmetic helpers
(`vanishing`, `div_rem`, `lagrange().ifft()`) live in a module of the
repository that is not part of the sources under verification; they are
modelled from the spec where marked.
-/

set_option maxRecDepth 8000
set_option linter.unusedSectionVars false

variable {F : Type} [Field F] [DecidableEq F]

/-- Coefficient of `X^n` of a coefficient list (zero beyond the end). -/
def coeff (p : List F) (n : ℕ) : F := p.getD n 0

/-- Addition of coefficient lists, padding the shorter with zeros. -/
def polyAdd : List F → List F → List F
  | [], q => q
  | p, [] => p
  | a :: p, b :: q => (a + b) :: polyAdd p q

/-- Scalar multiplication, as in the source's `&poly * scalar`. -/
def polySmul (c : F) (p : List F) : List F := p.map (fun x => c * x)

/-- Coefficient-wise negation. -/
def polyNegL (p : List F) : List F := p.map (fun x => -x)

/-- Subtraction of coefficient lists. -/
def polySub (p q : List F) : List F := polyAdd p (polyNegL q)

/-- Adding a scalar to a polynomial, as in the source's `poly + scalar`. -/
def polyAddC (p : List F) (c : F) : List F := polyAdd p [c]

/-- Product of coefficient lists (convolution), the source's `poly_mul`. -/
def polyMul : List F → List F → List F
  | [], _ => []
  | a :: p, q => polyAdd (q.map (fun x => a * x)) (0 :: polyMul p q)

/-- Horner evaluation of a coefficient list, the source's `evaluate`. -/
def evalP (p : List F) (x : F) : F := p.foldr (fun c acc => c + x * acc) 0

/-- Multiplication by the monic linear factor `X + c`. -/
def mulXAdd (c : F) (p : List F) : List F := polyAdd (p.map (fun x => c * x)) (0 :: p)

/-- Modelled from the spec: `UnivariatePolynomial::vanishing(points, 1)`
(in the repository's `poly` module, outside the verified sources) is the
monic vanishing polynomial, the product of `X - h` over the points. -/
def vanishing (hs : List F) : List F := hs.foldr (fun h acc => mulXAdd (-h) acc) [1]

/-- One leading-coefficient elimination step per unit of fuel; the divisor is
expected monic, which every divisor in the source is. -/
def divRemAux (b : List F) : ℕ → List F → List F × List F
  | 0, a => ([], a)
  | fuel + 1, a =>
    if a.length < b.length then ([], a)
    else
      let lead := coeff a (a.length - 1)
      let shift := a.length - b.length
      let a2 := polySub a.dropLast (List.replicate shift 0 ++ (b.dropLast.map (fun x => lead * x)))
      let qr := divRemAux b fuel a2
      (qr.1 ++ [lead], qr.2)

/-- Modelled from the spec: `div_rem` is euclidean polynomial division,
returning quotient and remainder. -/
def div_rem (a b : List F) : List F × List F := divRemAux b a.length a

/-- Field inversion as in the source's `invert()`; `none` models the panic of
the following `.unwrap()` on a zero argument. -/
def finv (x : F) : Option F := if x = 0 then none else some x⁻¹

/-- The inner weight loop of `lagrange_interp`:
`bary_centric_weights[idx] *= (h_i - h_j).invert().unwrap()` over all
`jdx ≠ idx`. -/
def bary_weight (hs : List F) (idx : ℕ) : Option F :=
  (List.range hs.length).foldlM
    (fun w jdx =>
      if jdx = idx then some w
      else do
        let i ← finv (hs.getD idx 0 - hs.getD jdx 0)
        some (w * i))
    1

/-- The source's `lagrange_interp`: barycentric Lagrange interpolation,
accumulating `(z(X) / (X - h_idx)) * (y_idx * w_idx)` into a running sum
that starts from the zero polynomial `[0]`. -/
def lagrange_interp (h_i_values t_values_from_lookup : List F) : Option (List F) :=
  (List.range h_i_values.length).foldlM
    (fun sum idx => do
      let w ← bary_weight h_i_values idx
      let y_i ← t_values_from_lookup[idx]?
      let v_poly : List F := [-(h_i_values.getD idx 0), 1]
      let v_poly_inv := (div_rem (vanishing h_i_values) v_poly).1
      some (polyAdd sum (polySmul (y_i * w) v_poly_inv)))
    [0]

/-- Modelled from the spec: `UnivariatePolynomial::lagrange(values).ifft()`
(repository `poly` module, outside the verified sources) interpolates the
values over the given subgroup domain; degree below the number of nodes. -/
def interpolate (nodes values : List F) : List F :=
  (List.range nodes.length).foldl
    (fun acc i =>
      polyAdd acc
        (polySmul (values.getD i 0 * (((nodes.eraseIdx i).map (fun h => nodes.getD i 0 - h)).prod)⁻¹)
          (vanishing (nodes.eraseIdx i))))
    []

/-- The source's index extraction: for each deduplicated lookup value, the
first position of that value in the table
(`table.iter().position(|&x| x == *elem).unwrap()`); `none` models the
panic when a value is absent. -/
def iValues (table : List F) : List F → Option (List ℕ)
  | [] => some []
  | e :: rest => do
    let i ← table.findIdx? (fun x => x == e)
    let is ← iValues table rest
    some (i :: is)

/-- The source's column map: for each lookup entry, the position of its value
in the deduplicated value list
(`t_values_from_lookup.iter().position(|&x| x == lookup[i]).unwrap()`). -/
def colValues (ts : List F) : List F → Option (List ℕ)
  | [] => some []
  | f :: rest => do
    let c ← ts.findIdx? (fun x => x == f)
    let cs ← colValues ts rest
    some (c :: cs)

/-- `ts` is an admissible iteration order of the `HashSet` obtained by
collecting `lookup`: no duplicates, same underlying set of values. -/
def IsDedup (lookup ts : List F) : Prop :=
  ts.Nodup ∧ (∀ x ∈ ts, x ∈ lookup) ∧ (∀ x ∈ lookup, x ∈ ts)

instance (lookup ts : List F) : Decidable (IsDedup lookup ts) := by
  unfold IsDedup; infer_instance

/-- The `z_V` polynomial exactly as the round-2 prover builds it:
`vec![1]`, then `m - 1` zeros, then `vec![1]`. -/
def zVpoly (m : ℕ) : List F := 1 :: (List.replicate (m - 1) 0 ++ [1])

/-- The round-2 normalized Lagrange basis polynomial on `H_I`, exactly as the
source builds it: `z_I(X)/(X - h_j)` scaled by `-h_j / z_I(0)`. -/
def normalizedLagPoly (z_i_poly : List F) (col_i_root : F) : List F :=
  polySmul (-col_i_root * (evalP z_i_poly 0)⁻¹) (div_rem z_i_poly [-col_i_root, 1]).1

/-- The Lagrange basis polynomial `mu_i` on `V` as the source builds it:
`z_V(X)/(X - nu^i)` scaled by `nu^i / m`. -/
def muPoly (m : ℕ) (z_v_poly : List F) (v_root : F) : List F :=
  polySmul (v_root * (m : F)⁻¹) (div_rem z_v_poly [-v_root, 1]).1

/-- Outcome of a run of the prover (`tests::test_prover`): the polynomials
whose commitments were appended to the transcript in round 1 and round 2, the
challenges used, and whether the run completed (`ok = false` models a panic,
with the writes that had already happened retained). -/
structure ProverRun (F : Type) where
  written1 : List (List F)
  written2 : List (List F)
  alpha : F
  beta : F
  ok : Bool
  deriving DecidableEq

/-- The prover of `tests::test_prover`, line by line.  `ts` is the iteration
order of the `HashSet` deduplication of `lookup`; `nu` is the output of
`root_of_unity(m)`, modelled from the spec as a primitive `m`-th root of
unity (the generator of the domain `V`).  The challenges are the source's
hard-coded `alpha = 2`, `beta = 3`. -/
def testProver (table lookup ts : List F) (nu : F) : ProverRun F :=
  let m := lookup.length
  let vdom := (List.range m).map (fun i => nu ^ i)
  let phi_poly := interpolate vdom lookup
  match iValues table ts with
  | none => ⟨[phi_poly], [], 2, 3, false⟩
  | some i_values =>
    let h_i := i_values.map (fun i => nu ^ i)
    match lagrange_interp h_i ts with
    | none => ⟨[phi_poly], [], 2, 3, false⟩
    | some t_i_poly =>
      let z_i_poly := vanishing h_i
      match colValues ts lookup with
      | none => ⟨[phi_poly, t_i_poly], [], 2, 3, false⟩
      | some col_values =>
        let v_values := col_values.map (fun c => h_i.getD c 0)
        let v_poly := interpolate vdom v_values
        let alpha : F := 2
        let beta : F := 3
        let z_v_poly : List F := zVpoly m
        let z_i_at_0 := evalP z_i_poly 0
        let de := (List.range m).foldl
          (fun (de : List F × List F) i =>
            let col_i := col_values.getD i 0
            let v_root := nu ^ i
            let mu := muPoly m z_v_poly v_root
            let col_i_root := h_i.getD col_i 0
            let nlag := normalizedLagPoly z_i_poly col_i_root
            (polyAdd de.1 (polySmul (evalP mu alpha) nlag),
             polyAdd de.2 (polySmul (evalP nlag beta) mu)))
          ([0], [0])
        let d_poly := de.1
        let e_poly := de.2
        let d_t_poly := polyMul d_poly t_i_poly
        let phi_at_alpha := evalP phi_poly alpha
        let qdr := div_rem (polyAddC d_t_poly (-phi_at_alpha)) z_i_poly
        let z_i_at_beta := evalP z_i_poly beta
        let aaa := polyAddC (polySmul (-1) v_poly) beta
        let bbb := polyMul e_poly aaa
        let ccc := z_i_at_beta * z_i_at_0⁻¹
        let ddd := polySmul ccc v_poly
        let q_e_poly := polyAdd bbb ddd
        ⟨[phi_poly, t_i_poly, v_poly], [d_poly, qdr.2, qdr.1, e_poly, q_e_poly],
          alpha, beta, true⟩

/-- Pure value of the weight loop when no inversion panics: the running
product of `(h_idx - h_jdx)⁻¹` over `jdx ≠ idx`. -/
def weightVal (hs : List F) (idx : ℕ) : F :=
  (List.range hs.length).foldl
    (fun w jdx => if jdx = idx then w else w * (hs.getD idx 0 - hs.getD jdx 0)⁻¹) 1

/-- Pure value of `lagrange_interp` when no step panics. -/
def interpSum (hs ys : List F) : List F :=
  (List.range hs.length).foldl
    (fun sum idx =>
      polyAdd sum (polySmul (ys.getD idx 0 * weightVal hs idx) (vanishing (hs.eraseIdx idx))))
    [0]

/-- The BN254 scalar field of the source is replaced by the 13-element prime
field for concrete runs; every computation below uses only field operations.
The inverse is implemented as `x ^ 11` (Fermat) so that every operation
reduces inside the kernel. -/
def K : Type := ZMod 13

instance : CommRing K := inferInstanceAs (CommRing (ZMod 13))

instance : DecidableEq K := inferInstanceAs (DecidableEq (ZMod 13))

instance : Fintype K := inferInstanceAs (Fintype (ZMod 13))

instance : Field K where
  __ := inferInstanceAs (CommRing K)
  inv x := x ^ (11 : ℕ)
  exists_pair_ne := ⟨0, 1, by decide⟩
  mul_inv_cancel := by decide
  inv_zero := by decide
  nnqsmul := _
  qsmul := _

/-- The embedded prover run on a valid witness: `table = [1,2,3,4]`,
`lookup = [3,2,3,4]` (the completeness example of the spec, every value
present), dedup order `[3,2,4]`, `nu = 5` (a primitive 4th root of unity in
`K`); the assigned points `5^2, 5^1, 5^3 = 12, 5, 8` are distinct so the run
completes. -/
def witnessRun : ProverRun K := testProver [1, 2, 3, 4] [3, 2, 3, 4] [3, 2, 4] 5

/-- A second completed run, on `lookup = [1,2,1,4]` over the same table, used
to compare transcripts across different witnesses. -/
def witnessRun2 : ProverRun K := testProver [1, 2, 3, 4] [1, 2, 1, 4] [1, 2, 4] 5

/-- A run whose lookup `[3,2,3,5]` contains the value `5`, absent from the
table `[1,2,3,4]`. -/
def absentRun : ProverRun K := testProver [1, 2, 3, 4] [3, 2, 3, 5] [3, 2, 5] 5

theorem coeff_nil (n : ℕ) : coeff ([] : List F) n = 0 := rfl

theorem coeff_cons_zero (a : F) (p : List F) : coeff (a :: p) 0 = a := rfl

theorem coeff_cons_succ (a : F) (p : List F) (n : ℕ) : coeff (a :: p) (n + 1) = coeff p n := rfl

theorem coeff_eq_zero_of_le (p : List F) (n : ℕ) (h : p.length ≤ n) : coeff p n = 0 :=
  List.getD_eq_default _ _ h

theorem length_polyAdd (p q : List F) : (polyAdd p q).length = max p.length q.length := by
  induction p generalizing q with
  | nil => cases q <;> simp [polyAdd]
  | cons a p ih =>
    cases q with
    | nil => simp [polyAdd]
    | cons b q => simp [polyAdd, ih, Nat.succ_max_succ]

theorem coeff_polyAdd (p q : List F) (n : ℕ) :
    coeff (polyAdd p q) n = coeff p n + coeff q n := by
  induction p generalizing q n with
  | nil => cases q <;> simp [polyAdd, coeff_nil, coeff]
  | cons a p ih =>
    cases q with
    | nil => simp [polyAdd, coeff_nil, coeff]
    | cons b q =>
      cases n with
      | zero => simp [polyAdd, coeff_cons_zero]
      | succ n => simpa [polyAdd, coeff_cons_succ] using ih q n

theorem coeff_map_mul (c : F) (p : List F) (n : ℕ) :
    coeff (p.map (fun x => c * x)) n = c * coeff p n := by
  induction p generalizing n with
  | nil => simp [coeff]
  | cons a p ih =>
    cases n with
    | zero => rfl
    | succ n => simpa [coeff_cons_succ] using ih n

theorem coeff_polyNegL (p : List F) (n : ℕ) : coeff (polyNegL p) n = -(coeff p n) := by
  induction p generalizing n with
  | nil => simp [polyNegL, coeff]
  | cons a p ih =>
    cases n with
    | zero => rfl
    | succ n => simpa [polyNegL, coeff_cons_succ] using ih n

theorem coeff_polySub (p q : List F) (n : ℕ) :
    coeff (polySub p q) n = coeff p n - coeff q n := by
  simp [polySub, coeff_polyAdd, coeff_polyNegL, sub_eq_add_neg]

theorem coeff_mulXAdd (c : F) (p : List F) (n : ℕ) :
    coeff (mulXAdd c p) n = c * coeff p n + coeff (0 :: p) n := by
  simp [mulXAdd, coeff_polyAdd, coeff_map_mul]

theorem length_mulXAdd (c : F) (p : List F) : (mulXAdd c p).length = p.length + 1 := by
  simp [mulXAdd, length_polyAdd]

theorem listExt (p q : List F) (hlen : p.length = q.length)
    (h : ∀ n, coeff p n = coeff q n) : p = q := by
  induction p generalizing q with
  | nil => cases q with
    | nil => rfl
    | cons b q => simp at hlen
  | cons a p ih =>
    cases q with
    | nil => simp at hlen
    | cons b q =>
      have h0 := h 0
      simp [coeff_cons_zero] at h0
      have := ih q (by simpa using hlen) (fun n => h (n + 1))
      simp [h0, this]

theorem evalP_nil (x : F) : evalP ([] : List F) x = 0 := rfl

theorem evalP_cons (a : F) (p : List F) (x : F) : evalP (a :: p) x = a + x * evalP p x := rfl

theorem evalP_polyAdd (p q : List F) (x : F) :
    evalP (polyAdd p q) x = evalP p x + evalP q x := by
  induction p generalizing q with
  | nil => cases q <;> simp [polyAdd, evalP_nil]
  | cons a p ih =>
    cases q with
    | nil => simp [polyAdd, evalP_nil]
    | cons b q =>
      simp only [polyAdd, evalP_cons, ih q]
      ring

theorem evalP_map_mul (c : F) (p : List F) (x : F) :
    evalP (p.map (fun y => c * y)) x = c * evalP p x := by
  induction p with
  | nil => simp [evalP_nil]
  | cons a p ih =>
    simp only [List.map_cons, evalP_cons, ih]
    ring

theorem evalP_polySmul (c : F) (p : List F) (x : F) :
    evalP (polySmul c p) x = c * evalP p x := evalP_map_mul c p x

theorem evalP_mulXAdd (c : F) (p : List F) (x : F) :
    evalP (mulXAdd c p) x = (x + c) * evalP p x := by
  simp only [mulXAdd, evalP_polyAdd, evalP_map_mul, evalP_cons]
  ring

theorem evalP_vanishing (hs : List F) (x : F) :
    evalP (vanishing hs) x = (hs.map (fun h => x - h)).prod := by
  induction hs with
  | nil => simp [vanishing, evalP_cons, evalP_nil]
  | cons h t ih =>
    simp only [vanishing, List.foldr_cons, List.map_cons, List.prod_cons]
    rw [show (t.foldr (fun h acc => mulXAdd (-h) acc) [1]) = vanishing t from rfl]
    rw [evalP_mulXAdd, ih]
    ring

theorem length_vanishing (hs : List F) : (vanishing hs).length = hs.length + 1 := by
  induction hs with
  | nil => rfl
  | cons h t ih =>
    simp only [vanishing, List.foldr_cons] at ih ⊢
    rw [length_mulXAdd, ih]
    simp

theorem vanishing_ne_nil (hs : List F) : vanishing hs ≠ [] := by
  intro h
  have := length_vanishing hs
  rw [h] at this
  simp at this

theorem coeff_concat (q : List F) (d : F) (n : ℕ) :
    coeff (q ++ [d]) n = if n = q.length then d else coeff q n := by
  induction q generalizing n with
  | nil =>
    cases n with
    | zero => rfl
    | succ n => simp [coeff, List.getD]
  | cons a q ih =>
    cases n with
    | zero => simp [coeff_cons_zero]
    | succ n =>
      simp only [List.cons_append, coeff_cons_succ, ih, List.length_cons]
      by_cases hn : n = q.length <;> simp [hn]

theorem coeff_dropLast (p : List F) (n : ℕ) (h : n + 1 < p.length) :
    coeff p.dropLast n = coeff p n := by
  induction p generalizing n with
  | nil => simp at h
  | cons x p ih =>
    cases p with
    | nil => simp at h
    | cons y q =>
      cases n with
      | zero => rfl
      | succ n =>
        have := ih n (by simpa using h)
        simpa [List.dropLast, coeff_cons_succ] using this

theorem coeff_replicate_concat (s : ℕ) (x : F) (n : ℕ) :
    coeff (List.replicate s (0 : F) ++ [x]) n = if n = s then x else 0 := by
  induction s generalizing n with
  | zero =>
    cases n with
    | zero => rfl
    | succ n => simp [coeff, List.getD]
  | succ s ih =>
    cases n with
    | zero => simp [List.replicate, coeff_cons_zero]
    | succ n =>
      simp only [List.replicate, List.cons_append, coeff_cons_succ, ih]
      by_cases hn : n = s <;> simp [hn]

theorem divRemAux_succ (b : List F) (fuel : ℕ) (a : List F) (hge : ¬ a.length < b.length) :
    divRemAux b (fuel + 1) a =
      ((divRemAux b fuel (polySub a.dropLast (List.replicate (a.length - b.length) 0 ++
        (b.dropLast.map (fun x => coeff a (a.length - 1) * x))))).1 ++ [coeff a (a.length - 1)],
       (divRemAux b fuel (polySub a.dropLast (List.replicate (a.length - b.length) 0 ++
        (b.dropLast.map (fun x => coeff a (a.length - 1) * x))))).2) := by
  rw [divRemAux, if_neg hge]

theorem divRemAux_mulXAdd (h : F) (p : List F) (hp : p ≠ []) :
    divRemAux [-h, 1] (p.length + 1) (mulXAdd (-h) p) = (p, [0]) := by
  induction p using List.reverseRecOn with
  | nil => exact absurd rfl hp
  | append_singleton q d ih =>
    rcases eq_or_ne q [] with rfl | hq
    · show divRemAux [-h, 1] 2 (mulXAdd (-h) [d]) = ([d], [0])
      simp only [mulXAdd, List.map_cons, List.map_nil, polyAdd]
      rw [divRemAux]
      simp only [List.length_cons, List.length_nil]
      rw [if_neg (by omega)]
      simp only [coeff_cons_succ, coeff_cons_zero, List.dropLast,
        List.replicate, List.nil_append, List.map_cons, List.map_nil,
        polySub, polyNegL, polyAdd]
      rw [divRemAux]
      rw [if_pos (by simp)]
      simp only [List.nil_append, Prod.mk.injEq, List.cons.injEq, and_true, true_and]
      ring
    · have hlen : (mulXAdd (-h) (q ++ [d])).length = q.length + 2 := by
        rw [length_mulXAdd]; simp
      have hfuel : (q ++ [d]).length + 1 = (q.length + 1) + 1 := by simp
      have hge : ¬ (mulXAdd (-h) (q ++ [d])).length < ([-h, 1] : List F).length := by
        rw [hlen]
        simp only [List.length_cons, List.length_nil]
        omega
      rw [hfuel, divRemAux_succ _ _ _ hge]
      have hlead : coeff (mulXAdd (-h) (q ++ [d])) ((mulXAdd (-h) (q ++ [d])).length - 1) = d := by
        rw [hlen]
        have hidx : q.length + 2 - 1 = q.length + 1 := by omega
        rw [hidx, coeff_mulXAdd]
        have h1 : coeff (q ++ [d]) (q.length + 1) = 0 :=
          coeff_eq_zero_of_le _ _ (by simp)
        rw [h1, coeff_cons_succ, coeff_concat, if_pos rfl]
        ring
      have hstep :
          polySub (mulXAdd (-h) (q ++ [d])).dropLast
            (List.replicate ((mulXAdd (-h) (q ++ [d])).length - [-h, 1].length) 0 ++
              ([-h, 1].dropLast.map (fun x =>
                coeff (mulXAdd (-h) (q ++ [d])) ((mulXAdd (-h) (q ++ [d])).length - 1) * x))) =
            mulXAdd (-h) q := by
        rw [hlead, hlen]
        simp only [List.length_cons, List.length_nil, List.dropLast, List.map_cons, List.map_nil]
        have hsub : q.length + 2 - 2 = q.length := by omega
        rw [hsub]
        apply listExt
        · show (polySub _ _).length = _
          rw [polySub, length_polyAdd, List.length_dropLast, hlen, length_mulXAdd, polyNegL]
          simp
        · intro n
          rw [coeff_polySub, coeff_replicate_concat, coeff_mulXAdd]
          rcases lt_trichotomy n q.length with hn | rfl | hn
          · rw [coeff_dropLast _ _ (by rw [hlen]; omega), if_neg (by omega), coeff_mulXAdd]
            have e1 : coeff (q ++ [d]) n = coeff q n := by
              rw [coeff_concat, if_neg (by omega)]
            have e2 : coeff (0 :: (q ++ [d])) n = coeff (0 :: q) n := by
              cases n with
              | zero => rfl
              | succ k =>
                rw [coeff_cons_succ, coeff_cons_succ, coeff_concat, if_neg (by omega)]
            rw [e1, e2]
            ring
          · rw [coeff_dropLast _ _ (by rw [hlen]; omega), if_pos rfl, coeff_mulXAdd]
            have e1 : coeff (q ++ [d]) q.length = d := by
              rw [coeff_concat, if_pos rfl]
            have e2 : coeff q q.length = 0 := coeff_eq_zero_of_le _ _ le_rfl
            have hq1 : 1 ≤ q.length := by
              cases q with
              | nil => exact absurd rfl hq
              | cons a t => simp
            obtain ⟨k, hk⟩ : ∃ k, q.length = k + 1 := ⟨q.length - 1, by omega⟩
            have e3 : coeff (0 :: (q ++ [d])) q.length = coeff q k := by
              rw [hk, coeff_cons_succ, coeff_concat, if_neg (by omega)]
            have e4 : coeff (0 :: q) q.length = coeff q k := by
              rw [hk, coeff_cons_succ]
            rw [e1, e2, e3, e4]
            ring
          · have e0 : coeff (mulXAdd (-h) (q ++ [d])).dropLast n = 0 := by
              apply coeff_eq_zero_of_le
              rw [List.length_dropLast, hlen]
              omega
            have e1 : coeff q n = 0 := coeff_eq_zero_of_le _ _ (by omega)
            have e2 : coeff (0 :: q) n = 0 := by
              apply coeff_eq_zero_of_le
              simp
              omega
            rw [e0, if_neg (by omega), e1, e2]
            ring
      rw [hstep, ih hq, hlead]

theorem divRem_mulXAdd (h : F) (p : List F) (hp : p ≠ []) :
    div_rem (mulXAdd (-h) p) [-h, 1] = (p, [0]) := by
  rw [div_rem, length_mulXAdd]
  exact divRemAux_mulXAdd h p hp

theorem mulXAdd_comm (c e : F) (p : List F) :
    mulXAdd c (mulXAdd e p) = mulXAdd e (mulXAdd c p) := by
  apply listExt
  · simp [length_mulXAdd]
  · intro n
    match n with
    | 0 => simp only [coeff_mulXAdd, coeff_cons_zero]; ring
    | 1 => simp only [coeff_mulXAdd, coeff_cons_succ, coeff_cons_zero]; ring
    | (k + 2) => simp only [coeff_mulXAdd, coeff_cons_succ]; ring

theorem vanishing_eraseIdx (hs : List F) (j : ℕ) (hj : j < hs.length) :
    vanishing hs = mulXAdd (-(hs.getD j 0)) (vanishing (hs.eraseIdx j)) := by
  induction hs generalizing j with
  | nil => simp at hj
  | cons a t ih =>
    cases j with
    | zero => rfl
    | succ j =>
      have hj2 : j < t.length := by simpa using hj
      have step : vanishing (a :: t) = mulXAdd (-a) (vanishing t) := rfl
      rw [step, ih j hj2, mulXAdd_comm]
      rfl

theorem divRem_vanishing (hs : List F) (j : ℕ) (hj : j < hs.length) :
    div_rem (vanishing hs) [-(hs.getD j 0), 1] = (vanishing (hs.eraseIdx j), [0]) := by
  rw [vanishing_eraseIdx hs j hj]
  exact divRem_mulXAdd _ _ (vanishing_ne_nil _)

theorem foldlM_eq_foldl {α β : Type} (f : α → β → Option α) (g : α → β → α)
    (l : List β) (h : ∀ a : α, ∀ b ∈ l, f a b = some (g a b)) (init : α) :
    l.foldlM f init = some (l.foldl g init) := by
  induction l generalizing init with
  | nil => rfl
  | cons b t ih =>
    rw [List.foldlM_cons, List.foldl_cons, h init b (by simp)]
    exact ih (fun a c hc => h a c (by simp [hc])) (g init b)

theorem prod_map_inv (l : List F) (g : F → F) :
    (l.map (fun y => (g y)⁻¹)).prod = ((l.map g).prod)⁻¹ := by
  induction l with
  | nil => simp
  | cons a t ih => simp [ih, mul_inv, mul_comm]

theorem range_map_getD {α : Type} (l : List F) (f : F → α) :
    (List.range l.length).map (fun i => f (l.getD i 0)) = l.map f := by
  induction l with
  | nil => rfl
  | cons a t ih =>
    rw [List.length_cons, List.range_succ_eq_map]
    simp only [List.map_cons, List.map_map, Function.comp_def, List.getD_cons_succ,
      List.getD_cons_zero]
    rw [ih]

theorem foldl_if_mul (j : ℕ) (g : ℕ → F) (l : List ℕ) (init : F) :
    l.foldl (fun w i => if i = j then w else w * g i) init =
      init * (l.map (fun i => if i = j then 1 else g i)).prod := by
  induction l generalizing init with
  | nil => simp
  | cons b t ih =>
    rw [List.foldl_cons, List.map_cons, List.prod_cons, ih]
    by_cases hb : b = j
    · simp [hb]
    · simp only [if_neg hb]
      ring

theorem prod_if_range_eraseIdx (l : List F) (j : ℕ) (hj : j < l.length) (f : F → F) :
    ((List.range l.length).map (fun i => if i = j then 1 else f (l.getD i 0))).prod =
      ((l.eraseIdx j).map f).prod := by
  induction l generalizing j with
  | nil => simp at hj
  | cons a t ih =>
    rw [List.length_cons, List.range_succ_eq_map]
    cases j with
    | zero =>
      rw [List.map_cons, List.prod_cons, if_pos rfl, one_mul, List.map_map]
      have hfun : ((fun i => if i = 0 then (1 : F) else f ((a :: t).getD i 0)) ∘ Nat.succ) =
          (fun i => f (t.getD i 0)) := by
        funext x
        simp [Nat.succ_ne_zero]
      rw [hfun, range_map_getD, List.eraseIdx_cons_zero]
    | succ k =>
      have hk : k < t.length := by simpa using hj
      rw [List.map_cons, List.prod_cons, List.map_map]
      have hhead : (if (0 : ℕ) = k + 1 then (1 : F) else f ((a :: t).getD 0 0)) = f a := by
        rw [if_neg (by omega)]
        rfl
      have hfun : ((fun i => if i = k + 1 then (1 : F) else f ((a :: t).getD i 0)) ∘ Nat.succ) =
          (fun i => if i = k then (1 : F) else f (t.getD i 0)) := by
        funext x
        by_cases hx : x = k
        · simp [hx, Nat.succ_eq_add_one]
        · have hx2 : ¬ (x.succ = k + 1) := by omega
          simp [hx, hx2]
      rw [hhead, hfun, ih k hk, List.eraseIdx_cons_succ, List.map_cons, List.prod_cons]

theorem nodup_getD_ne (hs : List F) (hnd : hs.Nodup) (i j : ℕ)
    (hi : i < hs.length) (hj : j < hs.length) (hij : i ≠ j) :
    hs.getD i 0 ≠ hs.getD j 0 := by
  rw [List.getD_eq_getElem hs 0 hi, List.getD_eq_getElem hs 0 hj]
  intro h
  exact hij ((List.Nodup.getElem_inj_iff hnd).mp h)

theorem getD_mem_eraseIdx (hs : List F) (i j : ℕ) (hj : j < hs.length) (hij : i ≠ j) :
    hs.getD j 0 ∈ hs.eraseIdx i := by
  induction hs generalizing i j with
  | nil => simp at hj
  | cons a t ih =>
    cases i with
    | zero =>
      cases j with
      | zero => exact absurd rfl hij
      | succ k =>
        have hk : k < t.length := by simpa using hj
        rw [List.eraseIdx_cons_zero, List.getD_cons_succ, List.getD_eq_getElem t 0 hk]
        exact List.getElem_mem hk
    | succ m =>
      cases j with
      | zero => simp [List.eraseIdx_cons_succ, List.getD_cons_zero]
      | succ k =>
        have hk : k < t.length := by simpa using hj
        rw [List.eraseIdx_cons_succ, List.getD_cons_succ]
        exact List.mem_cons_of_mem a (ih m k hk (fun h => hij (by rw [h])))

theorem perm_getD_cons_eraseIdx (hs : List F) (j : ℕ) (hj : j < hs.length) :
    List.Perm (hs.getD j 0 :: hs.eraseIdx j) hs := by
  induction hs generalizing j with
  | nil => simp at hj
  | cons a t ih =>
    cases j with
    | zero => rw [List.getD_cons_zero, List.eraseIdx_cons_zero]
    | succ k =>
      have hk : k < t.length := by simpa using hj
      rw [List.getD_cons_succ, List.eraseIdx_cons_succ]
      exact (List.Perm.swap a (t.getD k 0) (t.eraseIdx k)).trans
        (List.Perm.cons a (ih k hk))

theorem not_mem_eraseIdx_self (hs : List F) (hnd : hs.Nodup) (j : ℕ) (hj : j < hs.length) :
    hs.getD j 0 ∉ hs.eraseIdx j := by
  have hper := perm_getD_cons_eraseIdx hs j hj
  have : (hs.getD j 0 :: hs.eraseIdx j).Nodup := hper.symm.nodup hnd
  exact (List.nodup_cons.mp this).1

theorem weightVal_eq (hs : List F) (j : ℕ) (hj : j < hs.length) :
    weightVal hs j = (((hs.eraseIdx j).map (fun h => hs.getD j 0 - h)).prod)⁻¹ := by
  rw [weightVal, foldl_if_mul j (fun i => (hs.getD j 0 - hs.getD i 0)⁻¹), one_mul]
  have h5 := prod_if_range_eraseIdx hs j hj (fun h => (hs.getD j 0 - h)⁻¹)
  simp only at h5
  rw [h5, prod_map_inv]

theorem bary_weight_eq (hs : List F) (idx : ℕ) (hnd : hs.Nodup) (hidx : idx < hs.length) :
    bary_weight hs idx = some (weightVal hs idx) := by
  rw [bary_weight, weightVal]
  apply foldlM_eq_foldl
  intro w jdx hjm
  have hj2 : jdx < hs.length := List.mem_range.mp hjm
  by_cases hje : jdx = idx
  · simp [hje]
  · have hne : hs.getD idx 0 - hs.getD jdx 0 ≠ 0 :=
      sub_ne_zero.mpr (nodup_getD_ne hs hnd idx jdx hidx hj2 (fun h => hje h.symm))
    have hfv : finv (hs.getD idx 0 - hs.getD jdx 0) =
        some ((hs.getD idx 0 - hs.getD jdx 0)⁻¹) := by
      rw [finv, if_neg hne]
    simp only [if_neg hje, hfv, Option.bind_eq_bind, Option.some_bind]

theorem lagrange_interp_eq (hs ys : List F) (hnd : hs.Nodup) (hlen : hs.length ≤ ys.length) :
    lagrange_interp hs ys = some (interpSum hs ys) := by
  rw [lagrange_interp, interpSum]
  apply foldlM_eq_foldl
  intro acc idx hidx
  have hidx2 : idx < hs.length := List.mem_range.mp hidx
  have hy : ys[idx]? = some (ys.getD idx 0) := by
    have hlt : idx < ys.length := lt_of_lt_of_le hidx2 hlen
    rw [List.getElem?_eq_getElem hlt, List.getD_eq_getElem ys 0 hlt]
  rw [bary_weight_eq hs idx hnd hidx2]
  simp only [Option.bind_eq_bind, Option.some_bind, hy, divRem_vanishing hs idx hidx2]

theorem evalP_foldl_polyAdd (l : List ℕ) (t : ℕ → List F) (init : List F) (x : F) :
    evalP (l.foldl (fun acc i => polyAdd acc (t i)) init) x =
      evalP init x + (l.map (fun i => evalP (t i) x)).sum := by
  induction l generalizing init with
  | nil => simp
  | cons b tl ih =>
    rw [List.foldl_cons, ih, List.map_cons, List.sum_cons, evalP_polyAdd]
    ring

theorem map_sum_eq_single (l : List ℕ) (f : ℕ → F) (j : ℕ) (hmem : j ∈ l) (hnd : l.Nodup)
    (hz : ∀ i ∈ l, i ≠ j → f i = 0) : (l.map f).sum = f j := by
  induction l with
  | nil => simp at hmem
  | cons a tl ih =>
    rcases List.mem_cons.mp hmem with rfl | hmem2
    · rw [List.map_cons, List.sum_cons, List.sum_eq_zero, add_zero]
      intro y hy
      obtain ⟨i, hi, rfl⟩ := List.mem_map.mp hy
      exact hz i (List.mem_cons_of_mem _ hi)
        (fun hij => (List.nodup_cons.mp hnd).1 (hij ▸ hi))
    · have ha : f a = 0 :=
        hz a (List.mem_cons_self a tl)
          (fun h => absurd hmem2 (h ▸ (List.nodup_cons.mp hnd).1))
      rw [List.map_cons, List.sum_cons, ha, zero_add]
      exact ih hmem2 (List.nodup_cons.mp hnd).2
        (fun i hi hij => hz i (List.mem_cons_of_mem _ hi) hij)

theorem interpSum_eval (hs ys : List F) (hnd : hs.Nodup) (j : ℕ) (hj : j < hs.length) :
    evalP (interpSum hs ys) (hs.getD j 0) = ys.getD j 0 := by
  rw [interpSum, evalP_foldl_polyAdd]
  rw [show evalP ([0] : List F) (hs.getD j 0) = 0 by simp [evalP_cons, evalP_nil]]
  rw [zero_add]
  rw [map_sum_eq_single (List.range hs.length) _ j (List.mem_range.mpr hj)
    (List.nodup_range hs.length)]
  · rw [evalP_polySmul, evalP_vanishing, weightVal_eq hs j hj]
    have hPne : ((hs.eraseIdx j).map (fun h => hs.getD j 0 - h)).prod ≠ 0 := by
      apply List.prod_ne_zero
      intro h0
      obtain ⟨h, hmem, heq⟩ := List.mem_map.mp h0
      have hh : hs.getD j 0 = h := sub_eq_zero.mp heq
      rw [← hh] at hmem
      exact not_mem_eraseIdx_self hs hnd j hj hmem
    rw [mul_assoc, inv_mul_cancel₀ hPne, mul_one]
  · intro i hi hij
    have hi2 : i < hs.length := List.mem_range.mp hi
    rw [evalP_polySmul, evalP_vanishing]
    have hzero : (0 : F) ∈ (hs.eraseIdx i).map (fun h => hs.getD j 0 - h) :=
      List.mem_map.mpr ⟨hs.getD j 0, getD_mem_eraseIdx hs i j hj hij, sub_self _⟩
    rw [List.prod_eq_zero hzero, mul_zero]

theorem findIdx?_spec (p : F → Bool) (l : List F) (s i : ℕ)
    (h : List.findIdx? p l s = some i) :
    s ≤ i ∧ i - s < l.length ∧ p (l.getD (i - s) 0) = true := by
  induction l generalizing s with
  | nil => rw [List.findIdx?_nil] at h; exact absurd h (by simp)
  | cons a t ih =>
    rw [List.findIdx?_cons] at h
    by_cases hp : p a = true
    · rw [if_pos hp] at h
      have hi : s = i := by injection h
      subst hi
      simpa using hp
    · rw [if_neg hp] at h
      obtain ⟨h1, h2, h3⟩ := ih (s + 1) h
      refine ⟨by omega, by simp only [List.length_cons]; omega, ?_⟩
      have his : i - s = (i - (s + 1)) + 1 := by omega
      rw [his, List.getD_cons_succ]
      exact h3

theorem findIdx?_isSome (p : F → Bool) (l : List F) (s : ℕ)
    (h : ∃ x ∈ l, p x = true) : ∃ i, List.findIdx? p l s = some i := by
  induction l generalizing s with
  | nil => simp at h
  | cons a t ih =>
    rw [List.findIdx?_cons]
    by_cases hp : p a = true
    · exact ⟨s, by rw [if_pos hp]⟩
    · rw [if_neg hp]
      apply ih
      obtain ⟨x, hx, hpx⟩ := h
      rcases List.mem_cons.mp hx with rfl | hx2
      · exact absurd hpx hp
      · exact ⟨x, hx2, hpx⟩

theorem iValues_spec (table ts : List F) (ivals : List ℕ)
    (h : iValues table ts = some ivals) :
    ivals.length = ts.length ∧
      ∀ j, j < ts.length →
        ivals.getD j 0 < table.length ∧
        table.getD (ivals.getD j 0) 0 = ts.getD j 0 := by
  induction ts generalizing ivals with
  | nil =>
    rw [iValues] at h
    have : ivals = [] := by injection h with h2; exact h2.symm
    subst this
    exact ⟨rfl, fun j hj => by simp at hj⟩
  | cons e rest ih =>
    rw [iValues] at h
    cases hfi : List.findIdx? (fun x => x == e) table 0 with
    | none => rw [hfi] at h; simp at h
    | some i =>
      rw [hfi] at h
      cases hrest : iValues table rest with
      | none => rw [hrest] at h; simp at h
      | some is =>
        rw [hrest] at h
        simp only [Option.bind_eq_bind, Option.some_bind] at h
        have hival : ivals = i :: is := by injection h with h2; exact h2.symm
        subst hival
        obtain ⟨hlen, hspec⟩ := ih is hrest
        obtain ⟨hs0, hslt, hsp⟩ := findIdx?_spec (fun x => x == e) table 0 i hfi
        simp only [Nat.sub_zero] at hslt hsp
        refine ⟨by simp [hlen], ?_⟩
        intro j hj
        cases j with
        | zero =>
          refine ⟨by simpa using hslt, ?_⟩
          simp only [List.getD_cons_zero]
          exact beq_iff_eq.mp hsp
        | succ k =>
          have hk : k < rest.length := by simpa using hj
          simpa [List.getD_cons_succ] using hspec k hk

theorem iValues_isSome (table ts : List F) (hsub : ∀ x ∈ ts, x ∈ table) :
    ∃ ivals, iValues table ts = some ivals := by
  induction ts with
  | nil => exact ⟨[], rfl⟩
  | cons e rest ih =>
    obtain ⟨ivals, hiv⟩ := ih (fun x hx => hsub x (List.mem_cons_of_mem e hx))
    obtain ⟨i, hi⟩ := findIdx?_isSome (fun x => x == e) table 0
      ⟨e, hsub e (List.mem_cons_self e rest), by simp⟩
    exact ⟨i :: ivals, by rw [iValues, hi, hiv]; rfl⟩

theorem colValues_eq_iValues (ts l : List F) : colValues ts l = iValues ts l := by
  induction l with
  | nil => rfl
  | cons f rest ih => rw [colValues, iValues, ih]

/-- C10: with pairwise-distinct interpolation nodes and at least as many
values as nodes, every `invert().unwrap()` inside `lagrange_interp` receives
a nonzero element and every index is in bounds, so the function returns a
polynomial instead of panicking. -/
theorem lagrange_interp_total (hs ys : List F) (hnd : hs.Nodup)
    (hlen : hs.length ≤ ys.length) :
    ∃ p, lagrange_interp hs ys = some p :=
  ⟨interpSum hs ys, lagrange_interp_eq hs ys hnd hlen⟩

theorem lagrange_interp_total_witness :
    ([(12 : K), 5, 8]).Nodup ∧ ([(12 : K), 5, 8]).length ≤ ([(3 : K), 2, 4]).length ∧
      ∃ p, lagrange_interp [(12 : K), 5, 8] [(3 : K), 2, 4] = some p :=
  ⟨by decide, by decide, lagrange_interp_total [(12 : K), 5, 8] [(3 : K), 2, 4]
    (by decide) (by decide)⟩

/-- C9: for a root `h_j` of `z_I` with `h_j` nonzero and `z_I(0)` nonzero,
the round-2 normalized Lagrange basis polynomial
`z_I(X)/(X - h_j) * (-h_j)/z_I(0)` evaluates to `1` at `0`. -/
theorem normalized_lag_at_zero (hs : List F) (hj : F) (hmem : hj ∈ hs) (hj0 : hj ≠ 0)
    (hz0 : evalP (vanishing hs) 0 ≠ 0) :
    evalP (normalizedLagPoly (vanishing hs) hj) 0 = 1 := by
  obtain ⟨j, hjlt, hjeq⟩ := List.mem_iff_getElem.mp hmem
  have hgd : hs.getD j 0 = hj := by rw [List.getD_eq_getElem hs 0 hjlt, hjeq]
  have hq : (div_rem (vanishing hs) [-hj, 1]).1 = vanishing (hs.eraseIdx j) := by
    rw [show ([-hj, 1] : List F) = [-(hs.getD j 0), 1] by rw [hgd],
      divRem_vanishing hs j hjlt]
  rw [normalizedLagPoly, hq, evalP_polySmul]
  have hprod : evalP (vanishing hs) 0 =
      (0 - hj) * ((hs.eraseIdx j).map (fun h => (0 : F) - h)).prod := by
    rw [evalP_vanishing]
    have hper := perm_getD_cons_eraseIdx hs j hjlt
    have hpe := (hper.map (fun h => (0 : F) - h)).prod_eq
    rw [← hpe, List.map_cons, List.prod_cons, hgd]
  rw [hprod] at hz0
  rw [hprod, evalP_vanishing]
  have hPne : ((hs.eraseIdx j).map (fun h => (0 : F) - h)).prod ≠ 0 :=
    (mul_ne_zero_iff.mp hz0).2
  have hnj : (-hj) ≠ 0 := neg_ne_zero.mpr hj0
  set P : F := ((hs.eraseIdx j).map (fun h => (0 : F) - h)).prod with hPdef
  rw [zero_sub, mul_inv]
  rw [show -hj * ((-hj)⁻¹ * P⁻¹) * P = (-hj * (-hj)⁻¹) * (P⁻¹ * P) from by ring,
    mul_inv_cancel₀ hnj, inv_mul_cancel₀ hPne, one_mul]

theorem normalized_lag_at_zero_witness :
    (5 : K) ∈ [(12 : K), 5, 8] ∧ (5 : K) ≠ 0 ∧
      evalP (vanishing [(12 : K), 5, 8]) 0 ≠ 0 ∧
      evalP (normalizedLagPoly (vanishing [(12 : K), 5, 8]) 5) 0 = 1 :=
  ⟨by decide, by decide, by decide,
    normalized_lag_at_zero [(12 : K), 5, 8] 5 (by decide) (by decide) (by decide)⟩

/-- C1 (amended): if every lookup value occurs in the table and the powers
`nu^{I[j]}` that the prover assigns to the distinct lookup values are
pairwise distinct, then the column map satisfies
`table[I[col(i)]] = f_i` for every `i`, the sub-table interpolation
`t_I = lagrange_interp` succeeds, and `t_I(h_{col(i)}) = f_i`. -/
theorem col_map_correct (table lookup ts : List F) (nu : F) (ivals : List ℕ)
    (hded : IsDedup lookup ts) (hiv : iValues table ts = some ivals)
    (hnd : (ivals.map (fun i => nu ^ i)).Nodup) :
    ∃ tI cols, lagrange_interp (ivals.map (fun i => nu ^ i)) ts = some tI ∧
      colValues ts lookup = some cols ∧
      ∀ i, i < lookup.length →
        table.getD (ivals.getD (cols.getD i 0) 0) 0 = lookup.getD i 0 ∧
        evalP tI ((ivals.map (fun i => nu ^ i)).getD (cols.getD i 0) 0) =
          lookup.getD i 0 := by
  obtain ⟨hivlen, hivspec⟩ := iValues_spec table ts ivals hiv
  have hslen : (ivals.map (fun i => nu ^ i)).length = ts.length := by
    rw [List.length_map, hivlen]
  obtain ⟨cols, hcols⟩ : ∃ cols, colValues ts lookup = some cols := by
    rw [colValues_eq_iValues]
    exact iValues_isSome ts lookup hded.2.2
  obtain ⟨hclen, hcspec⟩ := iValues_spec ts lookup cols
    (by rw [← colValues_eq_iValues]; exact hcols)
  refine ⟨interpSum (ivals.map (fun i => nu ^ i)) ts, cols,
    lagrange_interp_eq _ _ hnd (le_of_eq hslen), hcols, ?_⟩
  intro i hi
  obtain ⟨hcl, hcv⟩ := hcspec i hi
  constructor
  · rw [(hivspec (cols.getD i 0) hcl).2, hcv]
  · rw [interpSum_eval _ _ hnd (cols.getD i 0) (by rw [hslen]; exact hcl), hcv]

theorem col_map_correct_witness :
    IsDedup [(3 : K), 2, 3, 4] [(3 : K), 2, 4] ∧
      iValues [(1 : K), 2, 3, 4] [(3 : K), 2, 4] = some [2, 1, 3] ∧
      (([2, 1, 3] : List ℕ).map (fun i => (5 : K) ^ i)).Nodup ∧
      ∃ tI cols,
        lagrange_interp (([2, 1, 3] : List ℕ).map (fun i => (5 : K) ^ i))
          [(3 : K), 2, 4] = some tI ∧
        colValues [(3 : K), 2, 4] [(3 : K), 2, 3, 4] = some cols ∧
        ∀ i, i < ([(3 : K), 2, 3, 4] : List K).length →
          ([(1 : K), 2, 3, 4]).getD (([2, 1, 3] : List ℕ).getD (cols.getD i 0) 0) 0 =
            ([(3 : K), 2, 3, 4]).getD i 0 ∧
          evalP tI ((([2, 1, 3] : List ℕ).map (fun i => (5 : K) ^ i)).getD
            (cols.getD i 0) 0) = ([(3 : K), 2, 3, 4]).getD i 0 :=
  ⟨by decide, by decide, by decide,
    col_map_correct [(1 : K), 2, 3, 4] [(3 : K), 2, 3, 4] [(3 : K), 2, 4] 5 [2, 1, 3]
      (by decide) (by decide) (by decide)⟩

/-- C1 (counterexample): at the source's own test input
`table = [1,…,8]`, `lookup = [3,7,3,4]` (all values present, `m = 4`),
with `nu` the primitive `m`-th root of unity produced by `root_of_unity(m)`
(over `K`, `nu = 5`), the extracted indices are `I = [2,6,3]` and the
assigned points `nu^2, nu^6, nu^3` collide (`5^2 = 5^6 = 12`), so the
barycentric construction of `t_I` divides by zero: `lagrange_interp`
panics (`none`) and no `t_I` with `t_I(h_{col(i)}) = f_i` exists. -/
theorem col_map_counterexample :
    IsDedup [(3 : K), 7, 3, 4] [(3 : K), 7, 4] ∧
      (∀ x ∈ [(3 : K), 7, 3, 4], x ∈ [(1 : K), 2, 3, 4, 5, 6, 7, 8]) ∧
      (5 : K) ^ (4 : ℕ) = 1 ∧ (5 : K) ^ (1 : ℕ) ≠ 1 ∧ (5 : K) ^ (2 : ℕ) ≠ 1 ∧
      (5 : K) ^ (3 : ℕ) ≠ 1 ∧
      iValues [(1 : K), 2, 3, 4, 5, 6, 7, 8] [(3 : K), 7, 4] = some [2, 6, 3] ∧
      lagrange_interp (([2, 6, 3] : List ℕ).map (fun i => (5 : K) ^ i))
        [(3 : K), 7, 4] = none := by
  decide

theorem range_three : List.range 3 = [0, 1, 2] := by decide

/-- C8: the barycentric interpolation round-trip of the source's own test
`test_interpolation_poly`: nodes `{2,3,4}` with values `{4,9,16}` give
exactly the coefficient vector `[0,0,1]` (the polynomial `X^2`), and that
result evaluates to `25` at `5`.  Stated over any field in which `2 ≠ 0`
(the BN254 scalar field of the source is one). -/
theorem lagrange_interp_roundtrip (h2 : (2 : F) ≠ 0) :
    lagrange_interp ([2, 3, 4] : List F) [4, 9, 16] = some [0, 0, 1] ∧
      evalP ([0, 0, 1] : List F) 5 = 25 := by
  have h23 : (2 : F) ≠ 3 := fun h => one_ne_zero (α := F) (by linear_combination -h)
  have h24 : (2 : F) ≠ 4 := fun h => h2 (by linear_combination -h)
  have h34 : (3 : F) ≠ 4 := fun h => one_ne_zero (α := F) (by linear_combination -h)
  have hnd : ([2, 3, 4] : List F).Nodup := by
    simp [List.nodup_cons, h23, h24, h34]
  constructor
  · rw [lagrange_interp_eq _ _ hnd (by simp)]
    congr 1
    have hlen3 : ([2, 3, 4] : List F).length = 3 := rfl
    rw [interpSum, hlen3, range_three]
    simp only [List.foldl_cons, List.foldl_nil]
    have hrange : List.range ([2, 3, 4] : List F).length = [0, 1, 2] := by
      rw [hlen3]
      decide
    have hw0 : weightVal ([2, 3, 4] : List F) 0 = ((1 : F) * (2 - 3)⁻¹) * (2 - 4)⁻¹ := by
      rw [weightVal, hrange]
      simp only [List.foldl_cons, List.foldl_nil, List.getD_cons_zero, List.getD_cons_succ]
      norm_num
    have hw1 : weightVal ([2, 3, 4] : List F) 1 = ((1 : F) * (3 - 2)⁻¹) * (3 - 4)⁻¹ := by
      rw [weightVal, hrange]
      simp only [List.foldl_cons, List.foldl_nil, List.getD_cons_zero, List.getD_cons_succ]
      norm_num
    have hw2 : weightVal ([2, 3, 4] : List F) 2 = ((1 : F) * (4 - 2)⁻¹) * (4 - 3)⁻¹ := by
      rw [weightVal, hrange]
      simp only [List.foldl_cons, List.foldl_nil, List.getD_cons_zero, List.getD_cons_succ]
      norm_num
    have hv0 : vanishing ([3, 4] : List F) = [12, -7, 1] := by
      simp only [vanishing, List.foldr_cons, List.foldr_nil, mulXAdd, List.map_cons,
        List.map_nil, polyAdd]
      norm_num
    have hv1 : vanishing ([2, 4] : List F) = [8, -6, 1] := by
      simp only [vanishing, List.foldr_cons, List.foldr_nil, mulXAdd, List.map_cons,
        List.map_nil, polyAdd]
      norm_num
    have hv2 : vanishing ([2, 3] : List F) = [6, -5, 1] := by
      simp only [vanishing, List.foldr_cons, List.foldr_nil, mulXAdd, List.map_cons,
        List.map_nil, polyAdd]
      norm_num
    simp only [List.getD_cons_zero, List.getD_cons_succ, List.eraseIdx_cons_zero,
      List.eraseIdx_cons_succ, hw0, hw1, hw2, hv0, hv1, hv2]
    simp only [polySmul, List.map_cons, List.map_nil, polyAdd]
    have e1 : (2 : F) - 3 = -1 := by ring
    have e2 : (2 : F) - 4 = -2 := by ring
    have e3 : (3 : F) - 2 = 1 := by ring
    have e4 : (3 : F) - 4 = -1 := by ring
    have e5 : (4 : F) - 2 = 2 := by ring
    have e6 : (4 : F) - 3 = 1 := by ring
    rw [e1, e2, e3, e4, e5, e6]
    have hne2 : (-2 : F) ≠ 0 := fun h => h2 (by linear_combination -h)
    simp only [List.cons.injEq, and_true]
    refine ⟨by field_simp; ring, by field_simp; ring, by field_simp; ring⟩
  · show (0 : F) + 5 * (0 + 5 * (1 + 5 * 0)) = 25
    norm_num

theorem lagrange_interp_roundtrip_witness :
    (2 : K) ≠ 0 ∧ (lagrange_interp ([2, 3, 4] : List K) [4, 9, 16] = some [0, 0, 1] ∧
      evalP ([0, 0, 1] : List K) 5 = 25) :=
  ⟨by decide, lagrange_interp_roundtrip (by decide)⟩

/-- C3 (refuting): the round-2 prover builds `z_V` as `[1, 0, …, 0, 1]`,
which is `X^m + 1`, not the vanishing polynomial `X^m − 1` of `V`: for
`m = 4` over `K` it differs from `X^4 − 1 = [12, 0, 0, 0, 1]` (with
`12 = −1`), and it does not vanish at `1 ∈ V` (it evaluates to `2 ≠ 0`),
so its roots are not the `m`-th roots of unity. -/
theorem zV_wrong_sign :
    zVpoly 4 = ([1, 0, 0, 0, 1] : List K) ∧
      zVpoly 4 ≠ ([12, 0, 0, 0, 1] : List K) ∧
      (5 : K) ^ (4 : ℕ) = 1 ∧ evalP (zVpoly 4 : List K) 1 = 2 ∧ (2 : K) ≠ 0 := by
  decide

/-- C2 (refuting): on a valid witness whose run completes, the polynomial the
prover uses as `Q_E` (the last round-2 commitment) is the dividend
`E·(β−v) + v·z_I(β)/z_I(0)` itself — the division by `z_V` is never
performed — so it differs from the quotient of that dividend by the code's
`z_V`, and the remainder of that division is not the zero polynomial. -/
theorem qE_not_quotient :
    witnessRun.ok = true ∧
      witnessRun.written2.getD 4 [] ≠
        (div_rem (witnessRun.written2.getD 4 []) (zVpoly 4)).1 ∧
      ∃ c ∈ (div_rem (witnessRun.written2.getD 4 []) (zVpoly 4)).2, c ≠ 0 := by
  decide

/-- C4 (refuting): on the same valid witness the remainder `R` of
`(D·t_I − φ(α)) ÷ z_I` is not the zero polynomial, yet the prover performs
no check, raises no error, and commits all five round-2 polynomials
(`D, R, Q_D, E, Q_E`) anyway — the run completes with `ok = true`. -/
theorem remainder_unchecked :
    witnessRun.ok = true ∧ witnessRun.written2.length = 5 ∧
      ∃ c ∈ witnessRun.written2.getD 1 [], c ≠ 0 := by
  decide

/-- C5 (refuting): two admissible `HashSet` iteration orders of the same
deduplicated lookup values give different ordered index sets `I`, so the
extractor is not a function of `(table, f)` alone. -/
theorem dedup_order_dependence :
    IsDedup [(3 : K), 7, 3, 4] [(3 : K), 7, 4] ∧
      IsDedup [(3 : K), 7, 3, 4] [(7 : K), 3, 4] ∧
      iValues [(1 : K), 2, 3, 4, 5, 6, 7, 8] [(3 : K), 7, 4] = some [2, 6, 3] ∧
      iValues [(1 : K), 2, 3, 4, 5, 6, 7, 8] [(7 : K), 3, 4] = some [6, 2, 3] ∧
      iValues [(1 : K), 2, 3, 4, 5, 6, 7, 8] [(3 : K), 7, 4] ≠
        iValues [(1 : K), 2, 3, 4, 5, 6, 7, 8] [(7 : K), 3, 4] := by
  decide

/-- C6 (refuting): when a lookup value (`5`) is absent from the table, the
embedded prover run ends in the panic state (`ok = false`, modelling the
`Option::unwrap` on `position`, not a `WitnessError` value), and one
commitment — `φ` — has already been computed and absorbed into the
transcript before the failure, so the check is not before commitment work. -/
theorem absent_value_panics_after_commit :
    absentRun.ok = false ∧ absentRun.written1.length = 1 := by
  decide

/-- C7 (refuting): in the prover, only three round-1 commitments (`φ`, `t_I`,
`v`) are absorbed into the transcript — the `z_I` commitment is never
written — and the challenges are the hard-coded constants `α = 2`, `β = 3`:
two runs with different lookups produce different round-1 transcripts but
identical challenges, so the challenges are fixed independently of the
transcript rather than squeezed after the four commitments. -/
theorem challenges_hardcoded :
    witnessRun.ok = true ∧ witnessRun2.ok = true ∧
      witnessRun.written1.length = 3 ∧
      vanishing (([2, 1, 3] : List ℕ).map (fun i => (5 : K) ^ i)) ∉ witnessRun.written1 ∧
      witnessRun.written1 ≠ witnessRun2.written1 ∧
      witnessRun.alpha = witnessRun2.alpha ∧ witnessRun.beta = witnessRun2.beta ∧
      witnessRun.alpha = 2 ∧ witnessRun.beta = 3 := by
  decide
